import Mathlib

/-!
Verification of the ts-morph-analyzer scripts (code-smells.ts, trace-calls.ts,
extract-signatures.ts) against their natural-language specification.

The TypeScript sources are shallowly embedded: ts-morph AST nodes become a
small inductive of the syntax kinds the checks inspect, the SmellReport /
CallNode / SignatureInfo records become Lean structures, and the recursive
traversals become fueled recursive functions (fuel plays the role of
`maxDepth - depth` for the call tracer and of the call stack for the DFS).
Display-only strings (report messages, JSDoc text) are abstracted away;
everything the claims quantify over is kept.
-/

namespace TsMorph

/-- Severity of a smell finding (code-smells.ts, `SmellReport.severity`). -/
inductive Severity
  | warning
  | error
deriving DecidableEq, Repr

/-- Embedding of the `SmellReport` record (code-smells.ts lines 8-15).
The human-readable `message`/`details` strings are abstracted away except for
the circular-dependency details, whose cycle path is kept structurally in
`cyclePath` (the code stores it as `cycle.join(" → ")`). -/
structure SmellReport where
  type : String
  severity : Severity
  file : String
  line : Option Nat
  cyclePath : List String := []
deriving DecidableEq, Repr

/-- Threshold configuration (code-smells.ts lines 20-27). -/
structure Thresholds where
  maxParams : Nat
  maxFunctionLines : Nat
  maxFileLines : Nat
  maxNestingDepth : Nat
  maxComplexity : Nat
deriving DecidableEq, Repr

/-- Default thresholds (code-smells.ts lines 29-35). -/
def DEFAULT_THRESHOLDS : Thresholds :=
  { maxParams := 5
    maxFunctionLines := 50
    maxFileLines := 500
    maxNestingDepth := 4
    maxComplexity := 10 }

/-- Options for the smell detector (code-smells.ts lines 17-27); the
enabled-checks set is handled at the aggregation level. -/
structure SmellOptions where
  exportedOnly : Bool
  thresholds : Thresholds
deriving DecidableEq, Repr

/-- Syntax kinds distinguished by the checks in code-smells.ts; every other
ts-morph node kind is `otherKind`.  `binaryAndOr` is a binary expression whose
operator token is `&&` or `||`; `binaryOther` is any other binary expression. -/
inductive NodeKind
  | ifStmt
  | conditionalExpr
  | forStmt
  | forInStmt
  | forOfStmt
  | whileStmt
  | doStmt
  | caseClause
  | catchClause
  | tryStmt
  | switchStmt
  | binaryAndOr
  | binaryOther
  | otherKind
deriving DecidableEq, Repr

/-- A ts-morph AST node: a syntax kind plus its children in source order. -/
inductive TSNode
  | mk (kind : NodeKind) (children : List TSNode)

/-- Kind projection of a node. -/
def TSNode.kind : TSNode → NodeKind
  | .mk k _ => k

/-- Children projection of a node. -/
def TSNode.children : TSNode → List TSNode
  | .mk _ cs => cs

/-- Predicate of the first `if` in `getCyclomaticComplexity`'s
`forEachDescendant` callback (code-smells.ts lines 96-108). -/
def isComplexityStmt (k : NodeKind) : Bool :=
  k == .ifStmt || k == .conditionalExpr || k == .forStmt || k == .forInStmt ||
  k == .forOfStmt || k == .whileStmt || k == .doStmt || k == .caseClause ||
  k == .catchClause

/-- Predicate of the logical-operator check in `getCyclomaticComplexity`
(code-smells.ts lines 110-116). -/
def isLogicalAndOr (k : NodeKind) : Bool :=
  k == .binaryAndOr

mutual

/-- Total complexity increments contributed by a node and its descendants,
mirroring the body of `getCyclomaticComplexity`'s callback. -/
def nodeSteps : TSNode → Nat
  | .mk k cs =>
    (if isComplexityStmt k then 1 else 0) + (if isLogicalAndOr k then 1 else 0) +
      listSteps cs

/-- Sum of `nodeSteps` over a list of sibling nodes. -/
def listSteps : List TSNode → Nat
  | [] => 0
  | c :: cs => nodeSteps c + listSteps cs

end

mutual

/-- Count of a node together with its descendants whose kind satisfies `p`. -/
def countNodeP (p : NodeKind → Bool) : TSNode → Nat
  | .mk k cs => (if p k then 1 else 0) + countListP p cs

/-- Sum of `countNodeP p` over a list of sibling nodes. -/
def countListP (p : NodeKind → Bool) : List TSNode → Nat
  | [] => 0
  | c :: cs => countNodeP p c + countListP p cs

end

/-- Model of a ts-morph Function or Method declaration as the smell checks see
it: name (None when anonymous), start/end line, export status, parameter
count, and the children of its AST node (so that `forEachDescendant` is the
union of the children's subtrees). -/
structure FnModel where
  name : Option String
  startLine : Nat
  endLine : Nat
  exported : Bool
  paramCount : Nat
  body : List TSNode

/-- Embedding of `countLines` (code-smells.ts lines 60-64):
`endLine - startLine + 1`. -/
def countLines (fn : FnModel) : Nat :=
  fn.endLine - fn.startLine + 1

/-- Embedding of `getCyclomaticComplexity` (code-smells.ts lines 92-120):
base complexity 1 plus one increment per decision-point descendant. -/
def getCyclomaticComplexity (fn : FnModel) : Nat :=
  1 + listSteps fn.body

/-- Embedding of the `checkFn` closure inside `checkLargeFunctions`
(code-smells.ts lines 126-154): the export filter, the large-function report
and the high-complexity report, in push order. -/
def checkFn (filePath : String) (options : SmellOptions) (fn : FnModel) :
    List SmellReport :=
  if options.exportedOnly && !fn.exported then []
  else
    let lines := countLines fn
    (if lines > options.thresholds.maxFunctionLines then
      [{ type := "large-function"
         severity :=
           if lines > options.thresholds.maxFunctionLines * 2 then .error
           else .warning
         file := filePath
         line := some fn.startLine }]
    else []) ++
    (let complexity := getCyclomaticComplexity fn
     if complexity > options.thresholds.maxComplexity then
      [{ type := "high-complexity"
         severity :=
           if complexity > options.thresholds.maxComplexity * 2 then .error
           else .warning
         file := filePath
         line := some fn.startLine }]
     else [])

/-- Exit-code computation at the end of `main` (code-smells.ts lines 598-603):
`process.exit(1)` when some report has severity error, otherwise `main`
returns normally and the process exits 0. -/
def mainExitCode (reports : List SmellReport) : Nat :=
  if reports.any (fun r => r.severity == .error) then 1 else 0

/-! Signature extractor (extract-signatures.ts). -/

/-- One parameter of a function or method as the renderer reads it:
`getName()`, `isOptional()`, and the rendered type text. -/
structure ParamModel where
  name : String
  optional : Bool
  type : String
deriving DecidableEq, Repr

/-- Model of a FunctionDeclaration as `getFunctionSignature` reads it. -/
structure FunctionModel where
  name : Option String
  typeParams : List String
  params : List ParamModel
  returnType : String
  isAsync : Bool
deriving DecidableEq, Repr

/-- Model of a MethodDeclaration as `getMethodSignature` reads it;
`isPrivate` models `getScope() === "private"`. -/
structure MethodModel where
  name : String
  typeParams : List String
  params : List ParamModel
  returnType : String
  isAsync : Bool
  isStatic : Bool
  isPrivate : Bool
deriving DecidableEq, Repr

/-- Parameter-list rendering shared by `getFunctionSignature` and
`getMethodSignature`: `name[?]: Type`, joined with `", "`. -/
def renderParams (ps : List ParamModel) : String :=
  String.intercalate ", "
    (ps.map fun p => p.name ++ (if p.optional then "?" else "") ++ ": " ++ p.type)

/-- Type-parameter rendering: the sources join the type-parameter texts with
`", "` and wrap them in angle brackets when the joined string is nonempty. -/
def renderTypeParams (tps : List String) : String :=
  let s := String.intercalate ", " tps
  if s = "" then "" else "<" ++ s ++ ">"

/-- Embedding of `getFunctionSignature` (extract-signatures.ts lines 32-45). -/
def getFunctionSignature (fn : FunctionModel) : String :=
  (if fn.isAsync then "async " else "") ++ "function " ++ fn.name.getD "(anonymous)" ++
    renderTypeParams fn.typeParams ++ "(" ++ renderParams fn.params ++ "): " ++
    fn.returnType

/-- Embedding of `getMethodSignature` (extract-signatures.ts lines 47-61);
the source's `className` parameter is unused in the returned string and is
dropped here. -/
def getMethodSignature (m : MethodModel) : String :=
  (if m.isStatic then "static " else "") ++ (if m.isAsync then "async " else "") ++
    m.name ++ renderTypeParams m.typeParams ++ "(" ++ renderParams m.params ++
    "): " ++ m.returnType

/-- Model of a method declaration entry of a class: its rendered-signature
inputs plus its start line and JSDoc. -/
structure MethodDeclModel where
  model : MethodModel
  line : Nat
  jsdoc : Option String
deriving DecidableEq, Repr

/-- Model of a ClassDeclaration as the extractor reads it. -/
structure ClassDecl where
  name : Option String
  typeParams : List String
  extendsClause : Option String
  implementsClauses : List String
  exported : Bool
  line : Nat
  jsdoc : Option String
  methods : List MethodDeclModel
deriving DecidableEq, Repr

/-- Embedding of `getClassSignature` (extract-signatures.ts lines 63-74). -/
def getClassSignature (c : ClassDecl) : String :=
  let base := "class " ++ c.name.getD "(anonymous)" ++ renderTypeParams c.typeParams
  let withExtends :=
    match c.extendsClause with
    | some e => base ++ " extends " ++ e
    | none => base
  let implStr := String.intercalate ", " c.implementsClauses
  if implStr = "" then withExtends else withExtends ++ " implements " ++ implStr

/-- Model of a FunctionDeclaration entry of a source file. -/
structure FnDeclModel where
  model : FunctionModel
  exported : Bool
  line : Nat
  jsdoc : Option String
deriving DecidableEq, Repr

/-- Model of an InterfaceDeclaration entry of a source file. -/
structure IfaceDeclModel where
  name : String
  typeParams : List String
  extendsClauses : List String
  exported : Bool
  line : Nat
  jsdoc : Option String
deriving DecidableEq, Repr

/-- Embedding of `getInterfaceSignature` (extract-signatures.ts lines 76-85). -/
def getInterfaceSignature (i : IfaceDeclModel) : String :=
  let base := "interface " ++ i.name ++ renderTypeParams i.typeParams
  let extStr := String.intercalate ", " i.extendsClauses
  if extStr = "" then base else base ++ " extends " ++ extStr

/-- Model of a TypeAliasDeclaration entry of a source file. -/
structure TypeAliasDeclModel where
  name : String
  typeParams : List String
  typeText : String
  exported : Bool
  line : Nat
  jsdoc : Option String
deriving DecidableEq, Repr

/-- Embedding of `getTypeSignature` (extract-signatures.ts lines 87-94). -/
def getTypeSignature (t : TypeAliasDeclModel) : String :=
  "type " ++ t.name ++ renderTypeParams t.typeParams ++ " = " ++ t.typeText

/-- Model of one SourceUnit as the extractor reads it: the per-kind
declaration lists returned by `getFunctions()`, `getClasses()`,
`getInterfaces()` and `getTypeAliases()`, each in file order. -/
structure FileModel where
  path : String
  functions : List FnDeclModel
  classes : List ClassDecl
  interfaces : List IfaceDeclModel
  typeAliases : List TypeAliasDeclModel
deriving Repr

/-- Options of the extractor (extract-signatures.ts lines 8-13);
`jsonOutput` only affects display and is dropped. -/
structure ExtractOptions where
  exportedOnly : Bool
  includeTypes : Bool
  includePrivate : Bool
deriving DecidableEq, Repr

/-- Declaration kind tag of a `SignatureInfo` record. -/
inductive SigKind
  | functionKind
  | methodKind
  | classKind
  | interfaceKind
  | typeKind
deriving DecidableEq, Repr

/-- Embedding of the `SignatureInfo` record (extract-signatures.ts
lines 15-24). -/
structure SignatureInfo where
  file : String
  name : String
  kind : SigKind
  signature : String
  jsdoc : Option String
  exported : Bool
  line : Nat
  className : Option String := none
deriving DecidableEq, Repr

/-- Embedding of `extractFromSourceFile` (extract-signatures.ts
lines 103-193): functions first, then each class immediately followed by its
non-filtered methods, then (when `includeTypes`) interfaces and type
aliases, each group in file order. -/
def extractFromSourceFile (f : FileModel) (o : ExtractOptions) :
    List SignatureInfo :=
  (f.functions.filterMap fun fn =>
    if o.exportedOnly && !fn.exported then none
    else some
      { file := f.path
        name := fn.model.name.getD "(anonymous)"
        kind := .functionKind
        signature := getFunctionSignature fn.model
        jsdoc := fn.jsdoc
        exported := fn.exported
        line := fn.line }) ++
  ((f.classes.filter fun c => !(o.exportedOnly && !c.exported)).flatMap fun c =>
    let className := c.name.getD "(anonymous)"
    { file := f.path
      name := className
      kind := .classKind
      signature := getClassSignature c
      jsdoc := c.jsdoc
      exported := c.exported
      line := c.line } ::
    ((c.methods.filter fun m => !(!o.includePrivate && m.model.isPrivate)).map
      fun m =>
        { file := f.path
          name := m.model.name
          kind := .methodKind
          signature := getMethodSignature m.model
          jsdoc := m.jsdoc
          exported := c.exported
          line := m.line
          className := some className })) ++
  (if o.includeTypes then
    (f.interfaces.filterMap fun i =>
      if o.exportedOnly && !i.exported then none
      else some
        { file := f.path
          name := i.name
          kind := .interfaceKind
          signature := getInterfaceSignature i
          jsdoc := i.jsdoc
          exported := i.exported
          line := i.line }) ++
    (f.typeAliases.filterMap fun t =>
      if o.exportedOnly && !t.exported then none
      else some
        { file := f.path
          name := t.name
          kind := .typeKind
          signature := getTypeSignature t
          jsdoc := t.jsdoc
          exported := t.exported
          line := t.line })
  else [])

/-! Call hierarchy tracer (trace-calls.ts). -/

/-- Identity of a declaration: source-file path and name.  The sources build
the string key `filePath + ":" + name`; the pair is kept unconcatenated. -/
abbrev DeclId := String × String

/-- One entry of the chain of function-like ancestors of a reference, as
matched by `getFirstAncestor(a => isFunctionDeclaration(a) ||
isMethodDeclaration(a) || isArrowFunction(a))` in `getCallers`
(trace-calls.ts lines 74-76): either an arrow function or a
function/method declaration. -/
inductive AncEntry
  | arrow
  | fnDecl (d : DeclId)
deriving DecidableEq, Repr

/-- One call expression inside a body as `getCallees` reads it
(trace-calls.ts lines 113-127): the called name extracted from the callee
expression (empty when neither an identifier nor a property access), and the
declarations of the expression's type symbol. -/
structure CallSite where
  name : String
  decls : List DeclId
deriving DecidableEq, Repr

/-- The symbol-model facts the tracer consumes: per declaration, the
ancestor chains of its references (innermost function-like ancestor first,
with the definition's own name node already excluded, as lines 70-71 skip
it), the call expressions inside its body in traversal order (empty when the
declaration has no body), and its start line. -/
structure Program where
  refs : DeclId → List (List AncEntry)
  calls : DeclId → List CallSite
  line : DeclId → Nat

/-- Embedding of the `CallNode` record (trace-calls.ts lines 8-14). -/
structure CallNode where
  name : String
  file : String
  line : Nat
  children : List CallNode

/-- Identity recorded in a `CallNode`, in `DeclId` order (file, name). -/
def CallNode.ident (c : CallNode) : DeclId :=
  (c.file, c.name)

mutual

/-- Embedding of `getCallers` (trace-calls.ts lines 57-97).  `fuel` stands
for `maxDepth - depth`; the source's `depth >= maxDepth` early return is the
`fuel = 0` case, and it happens before the visited check and insertion, just
as in the source.  The visited set is threaded through the whole traversal,
mirroring the by-reference sharing of the JavaScript `Set`. -/
def getCallersF (p : Program) : Nat → DeclId → List DeclId → List CallNode × List DeclId
  | 0, _, visited => ([], visited)
  | fuel + 1, node, visited =>
    if node ∈ visited then ([], visited)
    else callersRefs p fuel (p.refs node) (node :: visited)

/-- The loop over `references` in `getCallers` (trace-calls.ts lines 69-94):
for each reference, the nearest function-like ancestor is the chain head;
only when it is a function/method declaration not yet visited is a caller
node pushed, with children traced first at the next depth. -/
def callersRefs (p : Program) : Nat → List (List AncEntry) → List DeclId → List CallNode × List DeclId
  | _, [], visited => ([], visited)
  | fuel, chain :: rest, visited =>
    match chain.head? with
    | some (.fnDecl d) =>
      if d ∈ visited then callersRefs p fuel rest visited
      else
        let r1 := getCallersF p fuel d visited
        let r2 := callersRefs p fuel rest r1.2
        (⟨d.2, d.1, p.line d, r1.1⟩ :: r2.1, r2.2)
    | _ => callersRefs p fuel rest visited

end

/-- The flattened iteration space of `getCallees`'s `forEachDescendant`
callback (trace-calls.ts lines 113-146): for each call expression with a
nonempty called name, one entry per declaration of the callee symbol. -/
def callTargets (p : Program) (node : DeclId) : List (String × DeclId) :=
  (p.calls node).flatMap fun c =>
    if c.name = "" then [] else c.decls.map fun d => (c.name, d)

mutual

/-- Embedding of `getCallees` (trace-calls.ts lines 99-150).  `fuel` stands
for `maxDepth - depth`.  Each recursive call receives `new Set(visited)`, a
copy; in this pure embedding the list is simply passed down unchanged, which
has the same semantics. -/
def getCalleesF (p : Program) : Nat → DeclId → List DeclId → List CallNode
  | 0, _, _ => []
  | fuel + 1, node, visited =>
    if node ∈ visited then []
    else calleesGo p fuel (callTargets p node) (node :: visited)

/-- The per-call-target loop of `getCallees` (trace-calls.ts lines 128-144):
the visited check uses the key built from the callee file and the called
name, and a skipped target contributes no node at all. -/
def calleesGo (p : Program) : Nat → List (String × DeclId) → List DeclId → List CallNode
  | _, [], _ => []
  | fuel, (cname, d) :: rest, visited =>
    (if (d.1, cname) ∈ visited then []
     else [⟨cname, d.1, p.line d, getCalleesF p fuel d visited⟩]) ++
    calleesGo p fuel rest visited

end

/-- Option parsing for `maxDepth` in `main` (trace-calls.ts lines 226-236):
the initial value is 3; it is overwritten only when `--depth` occurs and is
followed by a truthy (nonempty) argument, whose numeric parse is abstracted
as `parseIntF`. -/
def parseMaxDepth (parseIntF : String → Nat) (args : List String) : Nat :=
  match args.indexOf? "--depth" with
  | none => 3
  | some i =>
    match args.get? (i + 1) with
    | none => 3
    | some s => if s = "" then 3 else parseIntF s

/-- All root-to-node identity paths of a forest of call nodes: for every
node, the list of identities from a forest root down to that node.  The
paths to leaves are the maximal ones. -/
def allPaths : List CallNode → List (List DeclId)
  | [] => []
  | ⟨name, file, _, children⟩ :: ts =>
    ([(file, name)] :: (allPaths children).map fun q => (file, name) :: q) ++
      allPaths ts

/-- Identities of the nodes of a subtree that the callers traversal records
in its shared visited set, when the subtree root was emitted with `k` fuel
remaining: with no fuel left the node is emitted without being recorded. -/
def recIds : Nat → CallNode → List DeclId
  | 0, _ => []
  | k + 1, ⟨name, file, _, children⟩ => (file, name) :: children.flatMap (recIds k)

/-- Recorded identities over a forest whose roots were expanded with `k`
fuel remaining. -/
def recIdsF (k : Nat) (ts : List CallNode) : List DeclId :=
  ts.flatMap (recIds k)

/-- Name-consistency of the symbol model: a call expression's extracted name
agrees with the name of every declaration it resolves to (the identifier of
a direct call, or the accessed property name, is the declaration's name). -/
def WellNamed (p : Program) : Prop :=
  ∀ n : DeclId, ∀ c ∈ p.calls n, ∀ d ∈ c.decls, c.name = d.2

/-! Circular-dependency detection (code-smells.ts, `checkCircularDeps`). -/

/-- The dependency graph built in `checkCircularDeps` (code-smells.ts
lines 340-366): one entry per source file, mapping its path to its resolved
local dependency paths.  Import resolution itself reads the file system and
is kept abstract; the cycle-detection claims hold for any built graph. -/
abbrev DepGraph := List (String × List String)

/-- Embedding of `graph.get(node) || new Set()` (code-smells.ts line 378):
dependency list of a node, empty for nodes that are not keys. -/
def depsOf (g : DepGraph) (n : String) : List String :=
  match g.find? (fun e => e.1 == n) with
  | some e => e.2
  | none => []

/-- The mutable state of the DFS in `checkCircularDeps` (code-smells.ts
lines 369-371): the global visited set, the current path (the source keeps
`recursionStack` and `pathStack` in lockstep, so one list suffices, with
membership standing for `recursionStack.has`), and the cycles reported so
far. -/
structure DfsState where
  visited : List String
  path : List String
  cycles : List (List String)

mutual

/-- Embedding of `dfs` (code-smells.ts lines 373-399): mark the node
visited, push it on the path, process its dependencies, pop.  `fuel` bounds
the recursion purely to satisfy the termination checker; `dfsAll` supplies
more fuel than there are visitable nodes, so the `0` case is never taken. -/
def dfsF (g : DepGraph) : Nat → String → DfsState → DfsState
  | 0, _, st => st
  | fuel + 1, node, st =>
    let st1 : DfsState :=
      { st with visited := node :: st.visited, path := st.path ++ [node] }
    let st2 := dfsDeps g fuel (depsOf g node) st1
    { st2 with path := st2.path.dropLast }

/-- The loop over `deps` in `dfs` (code-smells.ts lines 379-395): recurse
into unvisited dependencies; a visited dependency on the current path yields
one reported cycle, the suffix of the path from its first occurrence,
closed with the dependency itself.  The source's `cycleStart !== -1` guard
is subsumed by the path-membership test. -/
def dfsDeps (g : DepGraph) : Nat → List String → DfsState → DfsState
  | _, [], st => st
  | fuel, dep :: rest, st =>
    if dep ∈ st.visited then
      if dep ∈ st.path then
        dfsDeps g fuel rest
          { st with cycles := st.cycles ++ [st.path.drop (st.path.indexOf dep) ++ [dep]] }
      else dfsDeps g fuel rest st
    else dfsDeps g fuel rest (dfsF g fuel dep st)

end

/-- The driver loop of `checkCircularDeps` (code-smells.ts lines 401-405):
start a DFS from every not-yet-visited key of the graph. -/
def dfsAll (g : DepGraph) (fuel : Nat) : DfsState :=
  (g.map (fun e => e.1)).foldl
    (fun st node => if node ∈ st.visited then st else dfsF g fuel node st)
    ⟨[], [], []⟩

/-- Fuel that the recursion of `dfs` can never exhaust: every recursive call
enters an unvisited node and marks it, and only keys and their listed
dependencies are ever visitable. -/
def graphFuel (g : DepGraph) : Nat :=
  1 + g.length + (g.map (fun e => e.2.length)).sum

/-- Embedding of `checkCircularDeps` (code-smells.ts lines 338-408),
reporting one error-severity `circular-dependency` finding per discovered
cycle, with the cycle path kept structurally. -/
def checkCircularDeps (g : DepGraph) : List SmellReport :=
  (dfsAll g (graphFuel g)).cycles.map fun cycle =>
    { type := "circular-dependency"
      severity := .error
      file := cycle.headI
      line := none
      cyclePath := cycle }

/-- Consecutive entries of a list are graph edges. -/
abbrev EdgeChain (g : DepGraph) (l : List String) : Prop :=
  l.Chain' fun a b => b ∈ depsOf g a

/-- Property of a well-reported cycle: nonempty, closed (first entry equals
last entry), no duplicate apart from that closing repetition, and every
consecutive pair an edge of the graph. -/
def GoodCycle (g : DepGraph) (c : List String) : Prop :=
  c ≠ [] ∧ c.head? = c.getLast? ∧ c.dropLast.Nodup ∧ EdgeChain g c

/-- Invariant of the DFS state: the current path is duplicate-free, follows
graph edges, is contained in the visited set, and all cycles collected so
far are well-reported. -/
structure DfsInv (g : DepGraph) (st : DfsState) : Prop where
  nodup : st.path.Nodup
  chain : EdgeChain g st.path
  sub : ∀ x ∈ st.path, x ∈ st.visited
  good : ∀ c ∈ st.cycles, GoodCycle g c

/-! Spec-side definitions used to compare the code with the claims. -/

/-- The attribution rule stated by the spec for an upward trace: the
smallest enclosing Function/Method ancestor of the reference, skipping
arrow functions on the way out. -/
def specSmallestEnclosingFn : List AncEntry → Option DeclId
  | [] => none
  | .arrow :: rest => specSmallestEnclosingFn rest
  | .fnDecl d :: _ => some d

/-- The claim's count of decision points of a body: if statements, ternary
expressions, for/for-in/for-of loops, while loops, do-while loops, case
clauses, catch clauses, and occurrences of the logical and/or operators. -/
def specDecisionCount (body : List TSNode) : Nat :=
  countListP (fun k => k == .ifStmt) body +
  countListP (fun k => k == .conditionalExpr) body +
  countListP (fun k => k == .forStmt) body +
  countListP (fun k => k == .forInStmt) body +
  countListP (fun k => k == .forOfStmt) body +
  countListP (fun k => k == .whileStmt) body +
  countListP (fun k => k == .doStmt) body +
  countListP (fun k => k == .caseClause) body +
  countListP (fun k => k == .catchClause) body +
  countListP (fun k => k == .binaryAndOr) body

/-! Concrete fixtures used by witnesses and counterexamples. -/

/-- A 51-line function starting at line 1 with an empty body. -/
def fnW : FnModel :=
  { name := some "f"
    startLine := 1
    endLine := 51
    exported := false
    paramCount := 0
    body := [] }

/-- Default smell options: all thresholds at their defaults, no export
filter. -/
def optsW : SmellOptions :=
  { exportedOnly := false, thresholds := DEFAULT_THRESHOLDS }

/-- A one-line function whose body holds three decision points: an if
statement containing a ternary expression, and a logical and/or operator. -/
def fnC2 : FnModel :=
  { name := some "g"
    startLine := 1
    endLine := 1
    exported := true
    paramCount := 0
    body := [.mk .ifStmt [.mk .conditionalExpr []], .mk .binaryAndOr []] }

/-- Smell options with `maxComplexity` lowered to 2. -/
def optsC2 : SmellOptions :=
  { exportedOnly := false
    thresholds := { DEFAULT_THRESHOLDS with maxComplexity := 2 } }

/-- The method of the spec's rendering scenario:
`static async fetch(id: string, opts?: Options): Promise<User>`. -/
def fetchMethod : MethodModel :=
  { name := "fetch"
    typeParams := []
    params := [⟨"id", false, "string"⟩, ⟨"opts", true, "Options"⟩]
    returnType := "Promise<User>"
    isAsync := true
    isStatic := true
    isPrivate := false }

/-- A source file whose internal declaration order is: class `C` at line 1,
then function `f` at line 10. -/
def fileC8 : FileModel :=
  { path := "a.ts"
    functions :=
      [{ model :=
           { name := some "f", typeParams := [], params := []
             returnType := "void", isAsync := false }
         exported := false, line := 10, jsdoc := none }]
    classes :=
      [{ name := some "C", typeParams := [], extendsClause := none
         implementsClauses := [], exported := false, line := 1, jsdoc := none
         methods := [] }]
    interfaces := []
    typeAliases := [] }

/-- Extractor options with every filter off. -/
def optsC8 : ExtractOptions :=
  ⟨false, false, false⟩

/-- Identity of the function `f` of file a.ts in the trace fixtures. -/
def fId : DeclId := ("a.ts", "f")

/-- Identity of the function `g` of file a.ts in the trace fixtures. -/
def gId : DeclId := ("a.ts", "g")

/-- A program where `f` and `g` call each other: `f`'s body holds one call
to `g` and vice versa, and each is referenced once from inside the other. -/
def pMutual : Program :=
  { refs := fun n =>
      if n = fId then [[.fnDecl gId]]
      else if n = gId then [[.fnDecl fId]]
      else []
    calls := fun n =>
      if n = fId then [⟨"g", [gId]⟩]
      else if n = gId then [⟨"f", [fId]⟩]
      else []
    line := fun _ => 1 }

/-- A program where `f` calls itself directly and nothing else. -/
def pSelfCall : Program :=
  { refs := fun _ => []
    calls := fun n => if n = fId then [⟨"f", [fId]⟩] else []
    line := fun _ => 1 }

/-- A program where `g` references `f` at two distinct call sites and no
other references or calls exist. -/
def pTwoSites : Program :=
  { refs := fun n => if n = fId then [[.fnDecl gId], [.fnDecl gId]] else []
    calls := fun _ => []
    line := fun _ => 1 }

/-- A program whose single reference of `f` sits in an arrow function that
itself sits inside the named function `g`. -/
def pArrowInG : Program :=
  { refs := fun n => if n = fId then [[.arrow, .fnDecl gId]] else []
    calls := fun _ => []
    line := fun _ => 1 }

/-- The spec's cycle scenario: a.ts imports b.ts, b.ts imports c.ts, c.ts
imports a.ts. -/
def gABC : DepGraph :=
  [("a.ts", ["b.ts"]), ("b.ts", ["c.ts"]), ("c.ts", ["a.ts"])]

/-- The single circular-dependency finding expected on `gABC`. -/
def rABC : SmellReport :=
  { type := "circular-dependency"
    severity := .error
    file := "a.ts"
    line := none
    cyclePath := ["a.ts", "b.ts", "c.ts", "a.ts"] }

/-! Theorems. -/

/-- C9: over a loaded source set, the detector's exit code is nonzero if and
only if some emitted finding has severity error; warning-only (or empty)
report lists exit with code zero. -/
theorem mainExitCode_nonzero_iff_error (reports : List SmellReport) :
    mainExitCode reports ≠ 0 ↔ ∃ r ∈ reports, r.severity = .error := by
  constructor
  · intro h
    by_cases ha : reports.any (fun r => r.severity == .error)
    · rcases List.any_eq_true.mp ha with ⟨r, hr, he⟩
      exact ⟨r, hr, by simpa using he⟩
    · exact absurd (by simp [mainExitCode, ha]) h
  · rintro ⟨r, hr, he⟩
    have ha : reports.any (fun r => r.severity == .error) = true :=
      List.any_eq_true.mpr ⟨r, hr, by simp [he]⟩
    simp [mainExitCode, ha]

/-- C1: for a Function/Method with `lines = endLine - startLine + 1`, the
large-functions check emits no large-function finding at exactly
`maxFunctionLines` lines, exactly one warning finding at one more line, and
exactly one error (not warning) finding at `2 * maxFunctionLines + 1`
lines. -/
theorem large_function_threshold_boundaries (filePath : String)
    (options : SmellOptions) (fn : FnModel)
    (hexp : options.exportedOnly = true → fn.exported = true)
    (hpos : 1 ≤ options.thresholds.maxFunctionLines) :
    (countLines fn = options.thresholds.maxFunctionLines →
      (checkFn filePath options fn).filter (fun r => r.type == "large-function") =
        []) ∧
    (countLines fn = options.thresholds.maxFunctionLines + 1 →
      (checkFn filePath options fn).filter (fun r => r.type == "large-function") =
        [{ type := "large-function", severity := .warning, file := filePath,
           line := some fn.startLine }]) ∧
    (countLines fn = 2 * options.thresholds.maxFunctionLines + 1 →
      (checkFn filePath options fn).filter (fun r => r.type == "large-function") =
        [{ type := "large-function", severity := .error, file := filePath,
           line := some fn.startLine }]) := by
  have hgate : (options.exportedOnly && !fn.exported) = false := by
    cases hE : options.exportedOnly
    · rfl
    · simp [hexp hE]
  refine ⟨?_, ?_, ?_⟩ <;> intro hL <;>
    simp only [checkFn, hgate, Bool.false_eq_true, if_false, hL] <;>
    by_cases hC : getCyclomaticComplexity fn > options.thresholds.maxComplexity <;>
    by_cases hC2 : getCyclomaticComplexity fn > options.thresholds.maxComplexity * 2 <;>
    simp [hC, hC2, List.filter_append, List.filter] <;>
    first
      | omega
      | (rw [if_neg (by omega)]; simp [List.filter])
      | (rw [if_pos (by omega), if_neg (by omega)]; simp [List.filter])
      | (rw [if_pos (by omega), if_pos (by omega)]; simp [List.filter])

/-- Witness for C1 at the default thresholds: a 51-line function with no
export filter yields exactly one large-function warning finding. -/
theorem large_function_threshold_boundaries_witness :
    (checkFn "a.ts" optsW fnW).filter (fun r => r.type == "large-function") =
      [{ type := "large-function", severity := .warning, file := "a.ts",
         line := some 1 }] :=
  (large_function_threshold_boundaries "a.ts" optsW fnW (by decide)
    (by decide)).2.1 (by decide)

/-- C7 counterexample: the renderer puts `static` before `async`, so the
claimed `[async] [static]` ordering fails on a static async method; the
concrete scenario method renders static-first. -/
theorem method_signature_static_before_async :
    getMethodSignature fetchMethod =
      "static async fetch(id: string, opts?: Options): Promise<User>" ∧
    getMethodSignature fetchMethod ≠
      "async static fetch(id: string, opts?: Options): Promise<User>" := by
  constructor
  · rfl
  · decide

/-- C7 amended: a method renders as
`[static] [async] name[<TypeParams>](param[?]: Type, ...): ReturnType`
(static before async) and a function declaration as
`[async] function name[<TypeParams>](param[?]: Type, ...): ReturnType`
(a leading `function` keyword); optional parameters carry a trailing `?`
before the colon, and the scenario method renders exactly as
`static async fetch(id: string, opts?: Options): Promise<User>`. -/
theorem signature_rendering_shape (m : MethodModel) (fn : FunctionModel) :
    getMethodSignature m =
      (if m.isStatic then "static " else "") ++
        (if m.isAsync then "async " else "") ++ m.name ++
        renderTypeParams m.typeParams ++ "(" ++
        String.intercalate ", "
          (m.params.map fun p =>
            p.name ++ (if p.optional then "?" else "") ++ ": " ++ p.type) ++
        "): " ++ m.returnType ∧
    getFunctionSignature fn =
      (if fn.isAsync then "async " else "") ++ "function " ++
        fn.name.getD "(anonymous)" ++ renderTypeParams fn.typeParams ++ "(" ++
        String.intercalate ", "
          (fn.params.map fun p =>
            p.name ++ (if p.optional then "?" else "") ++ ": " ++ p.type) ++
        "): " ++ fn.returnType ∧
    getMethodSignature fetchMethod =
      "static async fetch(id: string, opts?: Options): Promise<User>" :=
  ⟨rfl, rfl, rfl⟩

/-- Filtering with a boolean guard inside `filterMap` is filtering followed
by mapping. -/
theorem filterMap_guard {α β : Type} (p : α → Bool) (f : α → β) (l : List α) :
    (l.filterMap fun a => if p a then none else some (f a)) =
      (l.filter fun a => !p a).map f := by
  induction l with
  | nil => rfl
  | cons a l ih =>
    by_cases h : p a <;> simp [List.filterMap_cons, List.filter_cons, h, ih]

/-- C8 counterexample: a file declaring class `C` at line 1 and function `f`
at line 10 is emitted function-first, not in the file's own declaration
order. -/
theorem extract_not_in_file_order :
    (extractFromSourceFile fileC8 optsC8).map (fun s => s.name) ≠ ["C", "f"] ∧
    (extractFromSourceFile fileC8 optsC8).map (fun s => s.name) = ["f", "C"] := by
  constructor
  · decide
  · rfl

/-- C8 amended: the extractor emits each SourceUnit's declarations grouped
by kind, not interleaved in file order: first the functions in file order,
then each class immediately followed by its scope-filtered methods, then
(when types are included) the interfaces and then the type aliases, each
group in file order and each filter as in the source. -/
theorem extract_kind_grouped (f : FileModel) (o : ExtractOptions) :
    extractFromSourceFile f o =
      ((f.functions.filter fun fn => !(o.exportedOnly && !fn.exported)).map
        fun fn =>
          { file := f.path
            name := fn.model.name.getD "(anonymous)"
            kind := .functionKind
            signature := getFunctionSignature fn.model
            jsdoc := fn.jsdoc
            exported := fn.exported
            line := fn.line }) ++
      ((f.classes.filter fun c => !(o.exportedOnly && !c.exported)).flatMap
        fun c =>
          { file := f.path
            name := c.name.getD "(anonymous)"
            kind := .classKind
            signature := getClassSignature c
            jsdoc := c.jsdoc
            exported := c.exported
            line := c.line } ::
          ((c.methods.filter fun m => !(!o.includePrivate && m.model.isPrivate)).map
            fun m =>
              { file := f.path
                name := m.model.name
                kind := .methodKind
                signature := getMethodSignature m.model
                jsdoc := m.jsdoc
                exported := c.exported
                line := m.line
                className := some (c.name.getD "(anonymous)") })) ++
      (if o.includeTypes then
        ((f.interfaces.filter fun i => !(o.exportedOnly && !i.exported)).map
          fun i =>
            { file := f.path
              name := i.name
              kind := .interfaceKind
              signature := getInterfaceSignature i
              jsdoc := i.jsdoc
              exported := i.exported
              line := i.line }) ++
        ((f.typeAliases.filter fun t => !(o.exportedOnly && !t.exported)).map
          fun t =>
            { file := f.path
              name := t.name
              kind := .typeKind
              signature := getTypeSignature t
              jsdoc := t.jsdoc
              exported := t.exported
              line := t.line })
      else []) := by
  unfold extractFromSourceFile
  simp only [filterMap_guard]

mutual

/-- Per-node decomposition of the complexity increments into the claim's
individual construct counts. -/
theorem nodeSteps_eq_counts : ∀ n : TSNode,
    nodeSteps n =
      countNodeP (fun k => k == .ifStmt) n +
      countNodeP (fun k => k == .conditionalExpr) n +
      countNodeP (fun k => k == .forStmt) n +
      countNodeP (fun k => k == .forInStmt) n +
      countNodeP (fun k => k == .forOfStmt) n +
      countNodeP (fun k => k == .whileStmt) n +
      countNodeP (fun k => k == .doStmt) n +
      countNodeP (fun k => k == .caseClause) n +
      countNodeP (fun k => k == .catchClause) n +
      countNodeP (fun k => k == .binaryAndOr) n
  | .mk k cs => by
    have hl := listSteps_eq_counts cs
    have hk : (if isComplexityStmt k then 1 else 0) +
        (if isLogicalAndOr k then 1 else 0) =
        (if k == NodeKind.ifStmt then (1 : Nat) else 0) +
        (if k == NodeKind.conditionalExpr then 1 else 0) +
        (if k == NodeKind.forStmt then 1 else 0) +
        (if k == NodeKind.forInStmt then 1 else 0) +
        (if k == NodeKind.forOfStmt then 1 else 0) +
        (if k == NodeKind.whileStmt then 1 else 0) +
        (if k == NodeKind.doStmt then 1 else 0) +
        (if k == NodeKind.caseClause then 1 else 0) +
        (if k == NodeKind.catchClause then 1 else 0) +
        (if k == NodeKind.binaryAndOr then 1 else 0) := by
      cases k <;> rfl
    simp only [nodeSteps, countNodeP, specDecisionCount] at hl ⊢
    omega

/-- List version of `nodeSteps_eq_counts`. -/
theorem listSteps_eq_counts : ∀ l : List TSNode,
    listSteps l = specDecisionCount l
  | [] => by simp [listSteps, specDecisionCount, countListP]
  | c :: cs => by
    have h1 := nodeSteps_eq_counts c
    have h2 := listSteps_eq_counts cs
    simp only [listSteps, specDecisionCount, countListP] at h1 h2 ⊢
    omega

end

/-- C2: the computed cyclomatic complexity is 1 plus the number of if
statements, ternaries, for/for-in/for-of loops, while loops, do-while
loops, case clauses, catch clauses, and logical and/or occurrences in the
body; exceeding `maxComplexity` emits one warning finding, exceeding twice
that emits one error finding instead. -/
theorem high_complexity_meaning (filePath : String) (options : SmellOptions)
    (fn : FnModel)
    (hexp : options.exportedOnly = true → fn.exported = true) :
    getCyclomaticComplexity fn = 1 + specDecisionCount fn.body ∧
    (options.thresholds.maxComplexity < getCyclomaticComplexity fn →
      getCyclomaticComplexity fn ≤ 2 * options.thresholds.maxComplexity →
      (checkFn filePath options fn).filter (fun r => r.type == "high-complexity") =
        [{ type := "high-complexity", severity := .warning, file := filePath,
           line := some fn.startLine }]) ∧
    (2 * options.thresholds.maxComplexity < getCyclomaticComplexity fn →
      (checkFn filePath options fn).filter (fun r => r.type == "high-complexity") =
        [{ type := "high-complexity", severity := .error, file := filePath,
           line := some fn.startLine }]) := by
  have hgate : (options.exportedOnly && !fn.exported) = false := by
    cases hE : options.exportedOnly
    · rfl
    · simp [hexp hE]
  refine ⟨by simp [getCyclomaticComplexity, listSteps_eq_counts], ?_, ?_⟩ <;>
    intro h1 <;>
    simp only [checkFn, hgate, Bool.false_eq_true, if_false] <;>
    by_cases hL : countLines fn > options.thresholds.maxFunctionLines <;>
    by_cases hL2 : countLines fn > options.thresholds.maxFunctionLines * 2 <;>
    simp [hL, hL2, List.filter_append, List.filter] <;>
    first
      | omega
      | (intro h2; rw [if_pos (by omega), if_neg (by omega)]; simp [List.filter])
      | (rw [if_pos (by omega), if_pos (by omega)]; simp [List.filter])

/-- Witness for C2: a body with an if statement, a nested ternary and one
logical operator has complexity 4; against `maxComplexity = 2` this yields
exactly one high-complexity warning finding. -/
theorem high_complexity_meaning_witness :
    (checkFn "a.ts" optsC2 fnC2).filter (fun r => r.type == "high-complexity") =
      [{ type := "high-complexity", severity := .warning, file := "a.ts",
         line := some 1 }] :=
  (high_complexity_meaning "a.ts" optsC2 fnC2 (by decide)).2.1 (by decide)
    (by decide)

/-- The visited set threaded through the callers trace only grows. -/
theorem getCallersF_visited_mono (p : Program) :
    ∀ (fuel : Nat) (node : DeclId) (visited : List DeclId),
      ∀ x ∈ visited, x ∈ (getCallersF p fuel node visited).2 := by
  intro fuel
  induction fuel with
  | zero => intro node visited x hx; simpa [getCallersF] using hx
  | succ fuel ih =>
    have inner : ∀ (chains : List (List AncEntry)) (visited : List DeclId),
        ∀ x ∈ visited, x ∈ (callersRefs p fuel chains visited).2 := by
      intro chains
      induction chains with
      | nil => intro visited x hx; simpa [callersRefs] using hx
      | cons chain rest ihc =>
        intro visited x hx
        simp only [callersRefs]
        cases hh : chain.head? with
        | none => exact ihc visited x hx
        | some e =>
          cases e with
          | arrow => exact ihc visited x hx
          | fnDecl d =>
            by_cases hd : d ∈ visited
            · simp only [if_pos hd]
              exact ihc visited x hx
            · simp only [if_neg hd]
              exact ihc _ x (ih d visited x hx)
    intro node visited x hx
    by_cases hv : node ∈ visited
    · simpa [getCallersF, hv] using hx
    · simp only [getCallersF, if_neg hv]
      exact inner _ _ x (List.mem_cons_of_mem _ hx)

/-- The per-reference loop of the callers trace also only grows the visited
set. -/
theorem callersRefs_visited_mono (p : Program) :
    ∀ (fuel : Nat) (chains : List (List AncEntry)) (visited : List DeclId),
      ∀ x ∈ visited, x ∈ (callersRefs p fuel chains visited).2 := by
  intro fuel chains
  induction chains with
  | nil => intro visited x hx; simpa [callersRefs] using hx
  | cons chain rest ihc =>
    intro visited x hx
    simp only [callersRefs]
    cases hh : chain.head? with
    | none => exact ihc visited x hx
    | some e =>
      cases e with
      | arrow => exact ihc visited x hx
      | fnDecl d =>
        by_cases hd : d ∈ visited
        · simp only [if_pos hd]
          exact ihc visited x hx
        · simp only [if_neg hd]
          exact ihc _ x (getCallersF_visited_mono p fuel d visited x hx)

/-- Every root-to-node identity path of a callers forest is bounded by the
fuel, duplicate-free, and disjoint from the starting node and visited set. -/
theorem getCallersF_paths (p : Program) :
    ∀ (fuel : Nat) (node : DeclId) (visited : List DeclId),
      ∀ q ∈ allPaths (getCallersF p fuel node visited).1,
        q.length ≤ fuel ∧ q.Nodup ∧ ∀ x ∈ q, x ≠ node ∧ x ∉ visited := by
  intro fuel
  induction fuel with
  | zero => intro node visited q hq; simp [getCallersF, allPaths] at hq
  | succ fuel ih =>
    have inner : ∀ (chains : List (List AncEntry)) (visited : List DeclId),
        ∀ q ∈ allPaths (callersRefs p fuel chains visited).1,
          q.length ≤ fuel + 1 ∧ q.Nodup ∧ ∀ x ∈ q, x ∉ visited := by
      intro chains
      induction chains with
      | nil => intro visited q hq; simp [callersRefs, allPaths] at hq
      | cons chain rest ihc =>
        intro visited q hq
        simp only [callersRefs] at hq
        split at hq
        case _ d _ =>
          split at hq
          case isTrue hd => exact ihc visited q hq
          case isFalse hd =>
            simp only [allPaths, List.mem_append, List.mem_cons,
              List.mem_map, Prod.mk.eta] at hq
            rcases hq with (hq | ⟨a, ha, rfl⟩) | hq
            · subst hq
              refine ⟨by simp, by simp, ?_⟩
              intro x hx
              simp only [List.mem_singleton] at hx
              subst hx
              exact hd
            · rcases ih d visited a ha with ⟨hlen, hnd, hmem⟩
              refine ⟨by simpa using Nat.succ_le_succ hlen,
                List.nodup_cons.mpr ⟨fun hda => (hmem d hda).1 rfl, hnd⟩, ?_⟩
              intro x hx
              rcases List.mem_cons.mp hx with rfl | hx
              · exact hd
              · exact (hmem x hx).2
            · rcases ihc _ q hq with ⟨hlen, hnd, hmem⟩
              exact ⟨hlen, hnd, fun x hx hxv =>
                hmem x hx (getCallersF_visited_mono p fuel d visited x hxv)⟩
        case _ => exact ihc visited q hq
    intro node visited q hq
    by_cases hv : node ∈ visited
    · simp [getCallersF, hv, allPaths] at hq
    · simp only [getCallersF, if_neg hv] at hq
      rcases inner _ _ q hq with ⟨hlen, hnd, hmem⟩
      refine ⟨hlen, hnd, fun x hx => ?_⟩
      have := hmem x hx
      simp only [List.mem_cons, not_or] at this
      exact ⟨this.1, this.2⟩

/-- Name consistency transfers from the program to its flattened call
targets. -/
theorem callTargets_names (p : Program) (hw : WellNamed p) (node : DeclId) :
    ∀ t ∈ callTargets p node, t.1 = t.2.2 := by
  intro t ht
  simp only [callTargets, List.mem_flatMap] at ht
  rcases ht with ⟨c, hc, ht⟩
  by_cases hn : c.name = ""
  · simp [hn] at ht
  · simp only [if_neg hn, List.mem_map] at ht
    rcases ht with ⟨d, hd, rfl⟩
    exact hw node c hc d hd

/-- Every root-to-node identity path of a callees forest is bounded by the
fuel, duplicate-free, and disjoint from the starting node and visited set;
the symbol model must be name-consistent. -/
theorem getCalleesF_paths (p : Program) (hw : WellNamed p) :
    ∀ (fuel : Nat) (node : DeclId) (visited : List DeclId),
      ∀ q ∈ allPaths (getCalleesF p fuel node visited),
        q.length ≤ fuel ∧ q.Nodup ∧ ∀ x ∈ q, x ≠ node ∧ x ∉ visited := by
  intro fuel
  induction fuel with
  | zero => intro node visited q hq; simp [getCalleesF, allPaths] at hq
  | succ fuel ih =>
    have inner : ∀ (ts : List (String × DeclId)), (∀ t ∈ ts, t.1 = t.2.2) →
        ∀ (visited : List DeclId), ∀ q ∈ allPaths (calleesGo p fuel ts visited),
          q.length ≤ fuel + 1 ∧ q.Nodup ∧ ∀ x ∈ q, x ∉ visited := by
      intro ts
      induction ts with
      | nil => intro _ visited q hq; simp [calleesGo, allPaths] at hq
      | cons t rest ihc =>
        rintro hok visited q hq
        obtain ⟨cname, d⟩ := t
        have hname : cname = d.2 := hok (cname, d) (List.mem_cons_self _ _)
        subst hname
        simp only [calleesGo] at hq
        by_cases hvk : (d.1, d.2) ∈ visited
        · rw [if_pos hvk] at hq
          simp only [List.nil_append] at hq
          exact ihc (fun u hu => hok u (List.mem_cons_of_mem _ hu)) visited q hq
        · rw [if_neg hvk] at hq
          rw [Prod.mk.eta] at hvk
          simp only [List.singleton_append, allPaths, List.mem_append,
            List.mem_cons, List.mem_map, Prod.mk.eta] at hq
          rcases hq with (hq | ⟨a, ha, rfl⟩) | hq
          · subst hq
            refine ⟨by simp, by simp, ?_⟩
            intro x hx
            simp only [List.mem_singleton] at hx
            subst hx
            exact hvk
          · rcases ih d visited a ha with ⟨hlen, hnd, hmem⟩
            refine ⟨by simpa using Nat.succ_le_succ hlen,
              List.nodup_cons.mpr ⟨fun hda => (hmem d hda).1 rfl, hnd⟩, ?_⟩
            intro x hx
            rcases List.mem_cons.mp hx with rfl | hx
            · exact hvk
            · exact (hmem x hx).2
          · exact ihc (fun u hu => hok u (List.mem_cons_of_mem _ hu)) visited q hq
    intro node visited q hq
    by_cases hv : node ∈ visited
    · simp [getCalleesF, hv, allPaths] at hq
    · simp only [getCalleesF, if_neg hv] at hq
      rcases inner _ (callTargets_names p hw node) _ q hq with ⟨hlen, hnd, hmem⟩
      refine ⟨hlen, hnd, fun x hx => ?_⟩
      have := hmem x hx
      simp only [List.mem_cons, not_or] at this
      exact ⟨this.1, this.2⟩

/-- No node emitted by the callees loop carries an identity that was
already in the visited set: a visited target is omitted entirely. -/
theorem calleesGo_idents (p : Program) (fuel : Nat) :
    ∀ (ts : List (String × DeclId)) (visited : List DeclId),
      ∀ t ∈ calleesGo p fuel ts visited, t.ident ∉ visited := by
  intro ts
  induction ts with
  | nil => intro visited t ht; simp [calleesGo] at ht
  | cons u rest ihc =>
    intro visited t ht
    obtain ⟨cname, d⟩ := u
    simp only [calleesGo] at ht
    by_cases hvk : (d.1, cname) ∈ visited
    · rw [if_pos hvk] at ht
      simp only [List.nil_append] at ht
      exact ihc visited t ht
    · rw [if_neg hvk] at ht
      rcases List.mem_append.mp ht with ht | ht
      · simp only [List.mem_singleton] at ht
        subst ht
        simpa [CallNode.ident] using hvk
      · exact ihc visited t ht

/-- Top-level version of `calleesGo_idents` for a whole callees call. -/
theorem getCalleesF_idents (p : Program) :
    ∀ (fuel : Nat) (node : DeclId) (visited : List DeclId),
      ∀ t ∈ getCalleesF p fuel node visited, t.ident ∉ visited := by
  intro fuel node visited t ht
  cases fuel with
  | zero => simp [getCalleesF] at ht
  | succ fuel =>
    by_cases hv : node ∈ visited
    · simp [getCalleesF, hv] at ht
    · simp only [getCalleesF, if_neg hv] at ht
      intro hmem
      exact calleesGo_idents p fuel _ _ t ht (List.mem_cons_of_mem _ hmem)

/-- No node emitted by the callers loop carries an identity that was
already in the visited set at loop entry. -/
theorem callersRefs_idents (p : Program) :
    ∀ (fuel : Nat) (chains : List (List AncEntry)) (visited : List DeclId),
      ∀ t ∈ (callersRefs p fuel chains visited).1, t.ident ∉ visited := by
  intro fuel chains
  induction chains with
  | nil => intro visited t ht; simp [callersRefs] at ht
  | cons chain rest ihc =>
    intro visited t ht
    simp only [callersRefs] at ht
    split at ht
    case _ d _ =>
      split at ht
      case isTrue hd => exact ihc visited t ht
      case isFalse hd =>
        rcases List.mem_cons.mp ht with rfl | ht
        · simpa [CallNode.ident] using hd
        · intro hmem
          exact ihc _ t ht (getCallersF_visited_mono p fuel d visited _ hmem)
    case _ => exact ihc visited t ht

/-- Top-level version of `callersRefs_idents` for a whole callers call. -/
theorem getCallersF_idents (p : Program) :
    ∀ (fuel : Nat) (node : DeclId) (visited : List DeclId),
      ∀ t ∈ (getCallersF p fuel node visited).1, t.ident ∉ visited := by
  intro fuel node visited t ht
  cases fuel with
  | zero => simp [getCallersF] at ht
  | succ fuel =>
    by_cases hv : node ∈ visited
    · simp [getCallersF, hv] at ht
    · simp only [getCallersF, if_neg hv] at ht
      intro hmem
      exact callersRefs_idents p fuel _ _ t ht (List.mem_cons_of_mem _ hmem)

/-- A forest expanded with no fuel records nothing. -/
theorem recIdsF_zero : ∀ ts : List CallNode, recIdsF 0 ts = [] := by
  intro ts
  induction ts with
  | nil => rfl
  | cons t ts ih => simp only [recIdsF, List.flatMap_cons, recIds] at ih ⊢; simp [ih]

/-- The identities that the callers traversal records in its shared visited
set are pairwise distinct, were not in the starting visited set, and are
all present in the returned visited set. -/
theorem callersRefs_recIds (p : Program) :
    ∀ (fuel : Nat) (chains : List (List AncEntry)) (visited : List DeclId),
      (recIdsF fuel (callersRefs p fuel chains visited).1).Nodup ∧
      ∀ x ∈ recIdsF fuel (callersRefs p fuel chains visited).1,
        x ∉ visited ∧ x ∈ (callersRefs p fuel chains visited).2 := by
  intro fuel
  induction fuel using Nat.strong_induction_on with
  | _ fuel ihf =>
    intro chains
    induction chains with
    | nil =>
      intro visited
      constructor
      · simp [callersRefs, recIdsF]
      · intro x hx
        simp [callersRefs, recIdsF] at hx
    | cons chain rest ihc =>
      intro visited
      simp only [callersRefs]
      split
      case _ d _ =>
        split
        case isTrue hd => exact ihc visited
        case isFalse hd =>
          cases fuel with
          | zero =>
            constructor
            · rw [recIdsF_zero]
              exact List.nodup_nil
            · intro x hx
              rw [recIdsF_zero] at hx
              simp at hx
          | succ f =>
            have hr1 : getCallersF p (f + 1) d visited =
                callersRefs p f (p.refs d) (d :: visited) := by
              simp [getCallersF, hd]
            rcases ihf f (Nat.lt_succ_self f) (p.refs d) (d :: visited) with
              ⟨hA, hB⟩
            rw [← hr1] at hA hB
            have hdr1 : d ∈ (getCallersF p (f + 1) d visited).2 := by
              rw [hr1]
              exact callersRefs_visited_mono p f _ _ d (List.mem_cons_self _ _)
            rcases ihc (getCallersF p (f + 1) d visited).2 with ⟨hC, hD⟩
            have hsub : ∀ x ∈ visited, x ∈ (getCallersF p (f + 1) d visited).2 :=
              getCallersF_visited_mono p (f + 1) d visited
            have hsub2 : ∀ x ∈ (getCallersF p (f + 1) d visited).2,
                x ∈ (callersRefs p (f + 1) rest (getCallersF p (f + 1) d visited).2).2 :=
              callersRefs_visited_mono p (f + 1) rest _
            constructor
            · simp only [recIdsF, List.flatMap_cons, recIds, Prod.mk.eta]
              rw [List.cons_append, List.nodup_cons, List.nodup_append]
              refine ⟨?_, ?_, hC, ?_⟩
              · intro hmem
                rcases List.mem_append.mp hmem with hmem | hmem
                · exact (hB d hmem).1 (List.mem_cons_self _ _)
                · exact (hD d hmem).1 hdr1
              · exact hA
              · intro a ha hamem
                exact (hD a hamem).1 ((hB a ha).2)
            · intro x hx
              simp only [recIdsF, List.flatMap_cons, recIds, Prod.mk.eta,
                List.cons_append, List.mem_cons, List.mem_append] at hx
              rcases hx with rfl | hx | hx
              · exact ⟨hd, hsub2 _ hdr1⟩
              · refine ⟨fun hv => (hB x hx).1 (List.mem_cons_of_mem _ hv),
                  hsub2 _ (hB x hx).2⟩
              · exact ⟨fun hv => (hD x hx).1 (hsub x hv), (hD x hx).2⟩
      case _ => exact ihc visited

/-- C10 amended: the visited set is shared by reference across the whole
upward traversal, so every declaration identity recorded by the traversal —
every node emitted at depth below `maxDepth`, which is exactly when the
recursive call runs and inserts its key — appears at most once in the
entire callers tree; nodes emitted at the final depth level are never
recorded and may repeat (see the counterexample). -/
theorem getCallersF_root_recIds (p : Program) (N : Nat) (root : DeclId) :
    (recIdsF (N - 1) (getCallersF p N root []).1).Nodup := by
  cases N with
  | zero => simp [getCallersF, recIdsF]
  | succ n =>
    have hv : root ∉ ([] : List DeclId) := List.not_mem_nil root
    simp only [getCallersF, if_neg hv, Nat.succ_sub_one]
    exact (callersRefs_recIds p n (p.refs root) [root]).1

/-- The mutual-recursion fixture is name-consistent. -/
theorem pMutual_wellNamed : WellNamed pMutual := by
  intro n c hc d hd
  simp only [pMutual] at hc
  by_cases h1 : n = fId
  · simp only [if_pos h1, List.mem_singleton] at hc
    subst hc
    simp only [List.mem_singleton] at hd
    subst hd
    rfl
  · simp only [if_neg h1] at hc
    by_cases h2 : n = gId
    · simp only [if_pos h2, List.mem_singleton] at hc
      subst hc
      simp only [List.mem_singleton] at hd
      subst hd
      rfl
    · simp only [if_neg h2] at hc
      simp at hc

/-- C3: every root-to-leaf path of an up or down trace with maximum depth N
has at most N edges and repeats no declaration identity, and the depth
defaults to 3 when the caller passes no `--depth` option. -/
theorem trace_depth_and_path_uniqueness (p : Program) (N : Nat) (root : DeclId)
    (hw : WellNamed p) (parseIntF : String → Nat) (args : List String)
    (hnd : "--depth" ∉ args) :
    (∀ q ∈ allPaths (getCallersF p N root []).1,
      q.length ≤ N ∧ (root :: q).Nodup) ∧
    (∀ q ∈ allPaths (getCalleesF p N root []),
      q.length ≤ N ∧ (root :: q).Nodup) ∧
    parseMaxDepth parseIntF args = 3 := by
  refine ⟨?_, ?_, ?_⟩
  · intro q hq
    rcases getCallersF_paths p N root [] q hq with ⟨hlen, hnd2, hmem⟩
    exact ⟨hlen, List.nodup_cons.mpr
      ⟨fun hroot => (hmem root hroot).1 rfl, hnd2⟩⟩
  · intro q hq
    rcases getCalleesF_paths p hw N root [] q hq with ⟨hlen, hnd2, hmem⟩
    exact ⟨hlen, List.nodup_cons.mpr
      ⟨fun hroot => (hmem root hroot).1 rfl, hnd2⟩⟩
  · have hnone : args.indexOf? "--depth" = none :=
      List.indexOf?_eq_none_iff.mpr fun x hx => by
        simp only [beq_iff_eq]
        rintro rfl
        exact hnd hx
    unfold parseMaxDepth
    rw [hnone]

/-- Witness for C3: the mutually recursive two-function program traced from
`f` with depth 2, and an argument list with no `--depth` option. -/
theorem trace_depth_and_path_uniqueness_witness :
    (∀ q ∈ allPaths (getCallersF pMutual 2 fId []).1,
      q.length ≤ 2 ∧ (fId :: q).Nodup) ∧
    (∀ q ∈ allPaths (getCalleesF pMutual 2 fId []),
      q.length ≤ 2 ∧ (fId :: q).Nodup) ∧
    parseMaxDepth (fun _ => 0) ["--up"] = 3 :=
  trace_depth_and_path_uniqueness pMutual 2 fId pMutual_wellNamed
    (fun _ => 0) ["--up"] (by decide)

/-- C4 counterexample: `f` calls itself; tracing `f` downward, the
recursive call is omitted entirely instead of appearing as a leaf
CallNode. -/
theorem recursive_callee_omitted_counterexample :
    getCalleesF pSelfCall 5 fId [] = [] ∧
    ¬ ∃ c ∈ getCalleesF pSelfCall 5 fId [], c.ident = fId := by
  have h : getCalleesF pSelfCall 5 fId [] = [] := by
    simp [getCalleesF, calleesGo, callTargets, pSelfCall, fId]
  exact ⟨h, by simp [h]⟩

/-- C4 amended: a declaration already on the current recursion path is not
re-expanded and contributes no CallNode at all — it is omitted from the
output rather than appearing as a leaf — in both trace directions. -/
theorem visited_declaration_omitted (p : Program) (fuel : Nat) (node : DeclId)
    (visited : List DeclId) (h : node ∈ visited) :
    getCalleesF p fuel node visited = [] ∧
    (getCallersF p fuel node visited).1 = [] ∧
    (∀ (m : DeclId) (w : List DeclId), ∀ t ∈ getCalleesF p fuel m w,
      t.ident ∉ w) ∧
    (∀ (m : DeclId) (w : List DeclId), ∀ t ∈ (getCallersF p fuel m w).1,
      t.ident ∉ w) := by
  refine ⟨?_, ?_, getCalleesF_idents p fuel, getCallersF_idents p fuel⟩
  · cases fuel with
    | zero => simp [getCalleesF]
    | succ fuel => simp [getCalleesF, h]
  · cases fuel with
    | zero => simp [getCallersF]
    | succ fuel => simp [getCallersF, h]

/-- Witness for C4 amended: `g` is already on the path. -/
theorem visited_declaration_omitted_witness :
    getCalleesF pSelfCall 3 gId [gId] = [] ∧
    (getCallersF pSelfCall 3 gId [gId]).1 = [] ∧
    (∀ (m : DeclId) (w : List DeclId), ∀ t ∈ getCalleesF pSelfCall 3 m w,
      t.ident ∉ w) ∧
    (∀ (m : DeclId) (w : List DeclId), ∀ t ∈ (getCallersF pSelfCall 3 m w).1,
      t.ident ∉ w) :=
  visited_declaration_omitted pSelfCall 3 gId [gId] (by decide)

/-- C5 counterexample: `f`'s only reference sits in an arrow function
inside the named function `g`; the spec's smallest-enclosing-Function rule
attributes it to `g`, but the code reports no caller at all. -/
theorem arrow_reference_dropped_counterexample :
    (getCallersF pArrowInG 3 fId []).1 = [] ∧
    specSmallestEnclosingFn [.arrow, .fnDecl gId] = some gId := by
  constructor
  · simp [getCallersF, callersRefs, pArrowInG, fId]
  · rfl

/-- C5 amended: a reference is attributed to its nearest function-like
ancestor (function, method, or arrow) and is kept only when that nearest
ancestor is a function or method declaration; a reference whose nearest
function-like ancestor is an arrow function contributes no caller even
when the arrow sits inside a named Function/Method. -/
theorem caller_attribution_nearest_functionlike (p : Program) (fuel : Nat)
    (chain : List AncEntry) (visited : List DeclId) :
    (chain.head? = none → (callersRefs p fuel [chain] visited).1 = []) ∧
    (chain.head? = some .arrow → (callersRefs p fuel [chain] visited).1 = []) ∧
    (∀ d : DeclId, chain.head? = some (.fnDecl d) → d ∈ visited →
      (callersRefs p fuel [chain] visited).1 = []) ∧
    (∀ d : DeclId, chain.head? = some (.fnDecl d) → d ∉ visited →
      (callersRefs p fuel [chain] visited).1 =
        [⟨d.2, d.1, p.line d, (getCallersF p fuel d visited).1⟩]) := by
  refine ⟨?_, ?_, ?_, ?_⟩
  · intro h
    simp [callersRefs, h]
  · intro h
    simp [callersRefs, h]
  · intro d h hd
    simp [callersRefs, h, hd]
  · intro d h hd
    simp [callersRefs, h, hd]

/-- Witness for C5 amended: the arrow-first chain yields no caller, while a
chain whose head is the declaration `g` yields exactly one caller node. -/
theorem caller_attribution_nearest_functionlike_witness :
    (callersRefs pArrowInG 2 [[AncEntry.arrow, AncEntry.fnDecl gId]] []).1 =
      [] ∧
    (callersRefs pArrowInG 2 [[AncEntry.fnDecl gId]] []).1 =
      [⟨gId.2, gId.1, pArrowInG.line gId, (getCallersF pArrowInG 2 gId []).1⟩] :=
  ⟨(caller_attribution_nearest_functionlike pArrowInG 2 _ []).2.1 rfl,
   (caller_attribution_nearest_functionlike pArrowInG 2 _ []).2.2.2 gId rfl
     (by decide)⟩

/-- C10 counterexample: `g` calls the target from two distinct call sites;
with `maxDepth = 1` the two leaf-level emissions are never recorded in the
visited set, so `g` appears twice in the callers tree. -/
theorem callers_duplicate_at_depth_limit :
    ((getCallersF pTwoSites 1 fId []).1.map CallNode.ident) = [gId, gId] ∧
    ¬ ((getCallersF pTwoSites 1 fId []).1.map CallNode.ident).Nodup := by
  have h : (getCallersF pTwoSites 1 fId []).1.map CallNode.ident =
      [gId, gId] := by
    simp [getCallersF, callersRefs, pTwoSites, fId, gId, CallNode.ident]
  refine ⟨h, ?_⟩
  rw [h]
  decide

/-- One DFS call leaves the path exactly as it found it and only grows the
visited set. -/
theorem dfsF_path_visited (g : DepGraph) :
    ∀ (fuel : Nat) (node : String) (st : DfsState),
      (dfsF g fuel node st).path = st.path ∧
      ∀ x ∈ st.visited, x ∈ (dfsF g fuel node st).visited := by
  intro fuel
  induction fuel with
  | zero => intro node st; simp [dfsF]
  | succ fuel ih =>
    have inner : ∀ (deps : List String) (st : DfsState),
        (dfsDeps g fuel deps st).path = st.path ∧
        ∀ x ∈ st.visited, x ∈ (dfsDeps g fuel deps st).visited := by
      intro deps
      induction deps with
      | nil => intro st; simp [dfsDeps]
      | cons dep rest ihd =>
        intro st
        simp only [dfsDeps]
        by_cases h1 : dep ∈ st.visited
        · rw [if_pos h1]
          by_cases h2 : dep ∈ st.path
          · rw [if_pos h2]
            exact ihd _
          · rw [if_neg h2]
            exact ihd st
        · rw [if_neg h1]
          rcases ih dep st with ⟨hp1, hv1⟩
          rcases ihd (dfsF g fuel dep st) with ⟨hp2, hv2⟩
          exact ⟨hp2.trans hp1, fun x hx => hv2 x (hv1 x hx)⟩
    intro node st
    simp only [dfsF]
    rcases inner (depsOf g node)
      { st with visited := node :: st.visited, path := st.path ++ [node] } with
      ⟨hp, hv⟩
    constructor
    · show (dfsDeps g fuel (depsOf g node) _).path.dropLast = st.path
      rw [hp]
      exact List.dropLast_concat
    · intro x hx
      exact hv x (List.mem_cons_of_mem _ hx)

/-- The dependency loop of the DFS also preserves the path and grows the
visited set. -/
theorem dfsDeps_path_visited (g : DepGraph) (fuel : Nat) :
    ∀ (deps : List String) (st : DfsState),
      (dfsDeps g fuel deps st).path = st.path ∧
      ∀ x ∈ st.visited, x ∈ (dfsDeps g fuel deps st).visited := by
  intro deps
  induction deps with
  | nil => intro st; simp [dfsDeps]
  | cons dep rest ihd =>
    intro st
    simp only [dfsDeps]
    by_cases h1 : dep ∈ st.visited
    · rw [if_pos h1]
      by_cases h2 : dep ∈ st.path
      · rw [if_pos h2]
        exact ihd _
      · rw [if_neg h2]
        exact ihd st
    · rw [if_neg h1]
      rcases dfsF_path_visited g fuel dep st with ⟨hp1, hv1⟩
      rcases ihd (dfsF g fuel dep st) with ⟨hp2, hv2⟩
      exact ⟨hp2.trans hp1, fun x hx => hv2 x (hv1 x hx)⟩

/-- The DFS preserves the state invariant: it may only add well-reported
cycles. -/
theorem dfsF_inv (g : DepGraph) :
    ∀ (fuel : Nat) (node : String) (st : DfsState),
      DfsInv g st → node ∉ st.visited → EdgeChain g (st.path ++ [node]) →
      DfsInv g (dfsF g fuel node st) := by
  intro fuel
  induction fuel with
  | zero => intro node st h _ _; simpa [dfsF] using h
  | succ fuel ih =>
    have inner : ∀ (deps : List String) (node : String) (st : DfsState),
        (∀ d ∈ deps, d ∈ depsOf g node) →
        st.path.getLast? = some node →
        DfsInv g st →
        DfsInv g (dfsDeps g fuel deps st) := by
      intro deps
      induction deps with
      | nil => intro node st _ _ h; simpa only [dfsDeps] using h
      | cons dep rest ihd =>
        intro node st hdeps hlast hInv
        simp only [dfsDeps]
        by_cases h1 : dep ∈ st.visited
        · rw [if_pos h1]
          by_cases h2 : dep ∈ st.path
          · rw [if_pos h2]
            have hi : st.path.indexOf dep < st.path.length :=
              List.indexOf_lt_length.mpr h2
            have hdropeq : st.path.drop (st.path.indexOf dep) =
                st.path[st.path.indexOf dep] ::
                  st.path.drop (st.path.indexOf dep + 1) :=
              List.drop_eq_getElem_cons hi
            have hget : st.path[st.path.indexOf dep] = dep :=
              List.getElem_indexOf hi
            have hNe : st.path.drop (st.path.indexOf dep) ≠ [] := by
              rw [hdropeq]
              exact List.cons_ne_nil _ _
            have hlast2 : (st.path.drop (st.path.indexOf dep)).getLast? =
                some node := by
              have hsplit := hlast
              rw [← List.take_append_drop (st.path.indexOf dep) st.path,
                List.getLast?_append_of_ne_nil _ hNe] at hsplit
              exact hsplit
            have hchainDrop :
                EdgeChain g (st.path.drop (st.path.indexOf dep)) := by
              have hc := hInv.chain
              rw [← List.take_append_drop (st.path.indexOf dep) st.path] at hc
              exact hc.right_of_append
            have hgood : GoodCycle g
                (st.path.drop (st.path.indexOf dep) ++ [dep]) := by
              refine ⟨by simp, ?_, ?_, ?_⟩
              · rw [List.getLast?_concat, hdropeq, hget]
                rfl
              · rw [List.dropLast_concat]
                exact hInv.nodup.sublist (List.drop_sublist _ _)
              · refine List.chain'_append.mpr
                  ⟨hchainDrop, List.chain'_singleton _, ?_⟩
                intro x hx y hy
                simp only [List.head?_cons, Option.mem_def,
                  Option.some.injEq] at hy
                subst hy
                rw [hlast2] at hx
                simp only [Option.mem_def, Option.some.injEq] at hx
                subst hx
                exact hdeps dep (List.mem_cons_self _ _)
            refine ihd node _ (fun d hd => hdeps d (List.mem_cons_of_mem _ hd))
              hlast ⟨hInv.nodup, hInv.chain, hInv.sub, ?_⟩
            intro c hc
            rcases List.mem_append.mp hc with hc | hc
            · exact hInv.good c hc
            · simp only [List.mem_singleton] at hc
              subst hc
              exact hgood
          · rw [if_neg h2]
            exact ihd node st
              (fun d hd => hdeps d (List.mem_cons_of_mem _ hd)) hlast hInv
        · rw [if_neg h1]
          have hchain2 : EdgeChain g (st.path ++ [dep]) := by
            refine List.chain'_append.mpr
              ⟨hInv.chain, List.chain'_singleton _, ?_⟩
            intro x hx y hy
            simp only [List.head?_cons, Option.mem_def,
              Option.some.injEq] at hy
            subst hy
            rw [hlast] at hx
            simp only [Option.mem_def, Option.some.injEq] at hx
            subst hx
            exact hdeps dep (List.mem_cons_self _ _)
          have hInv' := ih dep st hInv h1 hchain2
          have hpath' := (dfsF_path_visited g fuel dep st).1
          refine ihd node (dfsF g fuel dep st)
            (fun d hd => hdeps d (List.mem_cons_of_mem _ hd)) ?_ hInv'
          rw [hpath']
          exact hlast
    intro node st hInv hnv hchain
    have hInv1 : DfsInv g
        { st with visited := node :: st.visited, path := st.path ++ [node] } := by
      refine ⟨?_, hchain, ?_, hInv.good⟩
      · rw [List.nodup_append]
        refine ⟨hInv.nodup, by simp, ?_⟩
        intro a ha
        simp only [List.mem_singleton]
        rintro rfl
        exact hnv (hInv.sub a ha)
      · intro x hx
        rcases List.mem_append.mp hx with hx | hx
        · exact List.mem_cons_of_mem _ (hInv.sub x hx)
        · simp only [List.mem_singleton] at hx
          subst hx
          exact List.mem_cons_self _ _
    have hInv2 := inner (depsOf g node) node _ (fun d hd => hd)
      (List.getLast?_concat _) hInv1
    have hpath2 := (dfsDeps_path_visited g fuel (depsOf g node)
      { st with visited := node :: st.visited, path := st.path ++ [node] }).1
    simp only [dfsF]
    refine ⟨?_, ?_, ?_, hInv2.good⟩
    · show ((dfsDeps g fuel (depsOf g node) _).path.dropLast).Nodup
      rw [hpath2, List.dropLast_concat]
      exact hInv.nodup
    · show EdgeChain g ((dfsDeps g fuel (depsOf g node) _).path.dropLast)
      rw [hpath2, List.dropLast_concat]
      exact hInv.chain
    · intro x hx
      show x ∈ (dfsDeps g fuel (depsOf g node) _).visited
      rw [hpath2, List.dropLast_concat] at hx
      exact (dfsDeps_path_visited g fuel (depsOf g node) _).2 x
        (List.mem_cons_of_mem _ (hInv.sub x hx))

/-- The DFS driver loop maintains the invariant from the empty state. -/
theorem dfsAll_inv (g : DepGraph) (fuel : Nat) : DfsInv g (dfsAll g fuel) := by
  have main : ∀ (nodes : List String) (st : DfsState),
      DfsInv g st → st.path = [] →
      DfsInv g (nodes.foldl
        (fun st node => if node ∈ st.visited then st else dfsF g fuel node st)
        st) ∧
      (nodes.foldl
        (fun st node => if node ∈ st.visited then st else dfsF g fuel node st)
        st).path = [] := by
    intro nodes
    induction nodes with
    | nil => intro st h hp; exact ⟨h, hp⟩
    | cons n rest ihn =>
      intro st h hp
      simp only [List.foldl_cons]
      by_cases hv : n ∈ st.visited
      · rw [if_pos hv]
        exact ihn st h hp
      · rw [if_neg hv]
        have hchain : EdgeChain g (st.path ++ [n]) := by
          rw [hp]
          exact List.chain'_singleton _
        refine ihn (dfsF g fuel n st) (dfsF_inv g fuel n st h hv hchain) ?_
        rw [(dfsF_path_visited g fuel n st).1, hp]
  have h0 : DfsInv g ⟨[], [], []⟩ := by
    refine ⟨List.nodup_nil, List.chain'_nil, ?_, ?_⟩
    · intro x hx
      simp at hx
    · intro c hc
      simp at hc
  exact (main (g.map fun e => e.1) ⟨[], [], []⟩ h0 rfl).1

/-- C6: every cycle reported by the circular-dependency check is closed
(first entry repeated as last), repeats no other node, and every
consecutive pair of its entries is an edge of the dependency graph. -/
theorem reported_cycles_valid (g : DepGraph) :
    ∀ r ∈ checkCircularDeps g,
      r.cyclePath ≠ [] ∧ r.cyclePath.head? = r.cyclePath.getLast? ∧
      r.cyclePath.dropLast.Nodup ∧ EdgeChain g r.cyclePath := by
  intro r hr
  unfold checkCircularDeps at hr
  rcases List.mem_map.mp hr with ⟨c, hc, rfl⟩
  exact (dfsAll_inv g (graphFuel g)).good c hc

/-- Witness for C6 on the spec's three-file cycle scenario. -/
theorem reported_cycles_valid_witness :
    rABC ∈ checkCircularDeps gABC ∧
    (rABC.cyclePath ≠ [] ∧ rABC.cyclePath.head? = rABC.cyclePath.getLast? ∧
     rABC.cyclePath.dropLast.Nodup ∧ EdgeChain gABC rABC.cyclePath) := by
  have hmem : rABC ∈ checkCircularDeps gABC := by
    simp [checkCircularDeps, dfsAll, graphFuel, dfsF, dfsDeps, depsOf, gABC,
      rABC, List.indexOf, List.findIdx, List.findIdx.go]
  exact ⟨hmem, reported_cycles_valid gABC rABC hmem⟩

end TsMorph
